import Mathlib

set_option autoImplicit false

namespace ArchDiff

/-- Result of one gitignore matcher query, mirroring the `ignore` crate's
`Match` enum with the matched pattern discarded: no match, an ignore match,
or a whitelist (negation) match. -/
inductive Match where
  | none
  | ignore
  | whitelist
deriving DecidableEq, Repr

/-- Test for `Match::is_ignore`. -/
def Match.isIgnore : Match → Bool
  | .ignore => true
  | _ => false

/-- Test for `Match::is_none`. -/
def Match.isNone : Match → Bool
  | .none => true
  | _ => false

/-- Compiled ignore matcher (`Gitignore`), modelled by its two query modes:
`matched(path, is_dir)` and `matched_path_or_any_parents(path, is_dir)`. -/
structure Gitignore where
  matched : String → Bool → Match
  matchedPathOrAnyParents : String → Bool → Match

/-- Constant root passed to `GitignoreBuilder::new` in `App::build_gitignore`:
patterns are compiled relative to the filesystem root. -/
def buildGitignoreRoot : String := "/"

/-- State of one absolute path on the filesystem, as observed through the two
operations the program performs: `std::fs::metadata` (stat) and
open-and-hash. `absent` and `statError` both make stat fail; they differ
only in the reason (no such file vs another I/O error such as permission
denied), which the embedding records because the spec distinguishes them.
`unreadable` is a path whose stat succeeds but whose content cannot be
hashed. `file h` is a readable file whose content hashes to `h`. -/
inductive FileState where
  | absent
  | statError
  | unreadable
  | file (hash : String)
deriving DecidableEq, Repr

/-- Whether `std::fs::metadata` succeeds on a path in this state. -/
def FileState.statOk : FileState → Bool
  | .absent => false
  | .statError => false
  | _ => true

/-- Content hash of a path in this state, if it can be computed. -/
def FileState.hashOf : FileState → Option String
  | .file h => Option.some h
  | _ => Option.none

/-- Model of `hash_file_logged`: hash the file at an absolute path, returning
`none` on failure (the error is logged to diagnostics, which the embedding
does not track). -/
def hashFileLogged (fs : String → FileState) (p : String) : Option String :=
  (fs p).hashOf

/-- Directory-tree entry as seen by the `WalkDir` traversal: a file, or a
directory with children, identified by its name component. -/
inductive FsTree where
  | file (name : String)
  | dir (name : String) (children : List FsTree)

/-- Predicate of `filter_entry` in the live scan: an entry is kept iff the
ignore matcher reports no match at all (`matched(path, is_dir).is_none()`).
`Option.none` stands for a traversal with no filter (the mirror scan). -/
def keepEntry : Option Gitignore → String → Bool → Bool
  | Option.none, _, _ => true
  | Option.some g, p, d => (g.matched p d).isNone

mutual

/-- One node of the `WalkDir` traversal with `filter_entry` pruning: an entry
failing the predicate is skipped and, if it is a directory, not descended
into. `pre` is the parent's full path including its trailing separator;
yielded pairs are (full path, is directory). -/
def walkTree (gi : Option Gitignore) (pre : String) : FsTree → List (String × Bool)
  | .file name =>
    let full := pre ++ name
    if keepEntry gi full false then [(full, false)] else []
  | .dir name children =>
    let full := pre ++ name
    if keepEntry gi full true then (full, true) :: walkForest gi (full ++ "/") children
    else []

/-- Traversal of a list of sibling subtrees, in order. -/
def walkForest (gi : Option Gitignore) (pre : String) : List FsTree → List (String × Bool)
  | [] => []
  | t :: ts => walkTree gi pre t ++ walkForest gi pre ts

end

/-- Model of `WalkDir::new(root)` where `root` already ends with a path
separator: the root directory entry itself is yielded first (subject to the
filter), then its children, whose full paths are `root ++ name`. -/
def walkRoot (gi : Option Gitignore) (root : String) (children : List FsTree) :
    List (String × Bool) :=
  if keepEntry gi root true then (root, true) :: walkForest gi root children
  else []

/-- Phase 1 ("untracked files on disk"): fold over the pruned live traversal.
Directories are skipped; for a file, the root-relative path (the full path
with the first `rootLen` characters sliced off) is removed from the tracked
set if present, and otherwise a `('?', path)` entry is pushed. Returns the
remaining tracked set and the pushed entries in traversal order. -/
def phase1 (rootLen : Nat) :
    List (String × Bool) → List String → List String × List (Char × String)
  | [], pkgFiles => (pkgFiles, [])
  | (p, isDir) :: rest, pkgFiles =>
    if isDir then phase1 rootLen rest pkgFiles
    else
      let path := p.drop rootLen
      if path ∈ pkgFiles then phase1 rootLen rest (pkgFiles.filter (· ≠ path))
      else
        let r := phase1 rootLen rest pkgFiles
        (r.1, ('?', path) :: r.2)

/-- Phase 2 ("repo files that have been changed"): fold over the unfiltered
mirror traversal. Directories are skipped; for a file, the repo-relative path
is unconditionally removed from the backup map, then the mirror copy and the
live copy (`root ++ path`) are hashed; a failed hash skips the path, and
differing hashes push an `('R', path)` entry. Returns the remaining backup
map and the pushed entries in traversal order. -/
def phase2 (root : String) (repoLen : Nat) (fs : String → FileState) :
    List (String × Bool) → List (String × String) →
    List (String × String) × List (Char × String)
  | [], backups => (backups, [])
  | (p, isDir) :: rest, backups =>
    if isDir then phase2 root repoLen fs rest backups
    else
      let path := p.drop repoLen
      let backups' := backups.filter (fun kv => kv.1 ≠ path)
      match hashFileLogged fs p with
      | Option.none => phase2 root repoLen fs rest backups'
      | Option.some repoHash =>
        match hashFileLogged fs (root ++ path) with
        | Option.none => phase2 root repoLen fs rest backups'
        | Option.some actualHash =>
          let r := phase2 root repoLen fs rest backups'
          if repoHash ≠ actualHash then (r.1, ('R', path) :: r.2) else r

/-- Phase 3 ("deleted files from packages"): for each tracked path still in
the set, skip it when the direct ignore query on the absolute path is an
ignore match; otherwise emit `('D', p)` exactly when `std::fs::metadata`
fails (any `Err`), and nothing when it succeeds. -/
def phase3 (root : String) (ignored : Gitignore) (fs : String → FileState)
    (pkgFiles : List String) : List (Char × String) :=
  pkgFiles.filterMap fun p =>
    let fp := root ++ p
    if (ignored.matched fp false).isIgnore then Option.none
    else if (fs fp).statOk then Option.none else Option.some ('D', p)

/-- Phase 4 ("backup files that have been changed"): for each (path, expected
hash) pair still in the backup map, skip it when the any-ancestor ignore
query on the absolute path is an ignore match; otherwise hash the live file,
skipping on failure, and emit `('B', path)` exactly when the computed hash
differs from the expected one. -/
def phase4 (root : String) (ignored : Gitignore) (fs : String → FileState)
    (backups : List (String × String)) : List (Char × String) :=
  backups.filterMap fun kv =>
    let fp := root ++ kv.1
    if (ignored.matchedPathOrAnyParents fp false).isIgnore then Option.none
    else
      (hashFileLogged fs fp).elim Option.none fun actualHash =>
        if kv.2 = actualHash then Option.none else Option.some ('B', kv.1)

/-- Lexicographic codepoint order on character lists, the order underlying
`str::cmp` (bytewise on UTF-8, which agrees with codepoint order). -/
def charsLe : List Char → List Char → Bool
  | [], _ => true
  | _ :: _, [] => false
  | a :: as, b :: bs => if a = b then charsLe as bs else decide (a < b)

/-- Plain lexicographic order on path strings: `a.cmp(b)` is not `Greater`. -/
def pathLe (a b : String) : Bool := charsLe a.data b.data

/-- Model of `all.sort_by(|(_, a), (_, b)| a.cmp(b))`: a stable sort of the
entry list on the relative path alone. -/
def sortEntries (all : List (Char × String)) : List (Char × String) :=
  all.mergeSort fun a b => pathLe a.2 b.2

/-- Unsorted accumulation of the four phases into `all`, in push order: the
Phase 1 and Phase 2 entries in traversal order, then the Phase 3 block, then
the Phase 4 block (each `par_extend` appends one block at the end). -/
def collect (root repo : String) (ignored : Gitignore) (liveTree repoTree : List FsTree)
    (fs : String → FileState) (pkgFiles : List String)
    (backups : List (String × String)) : List (Char × String) :=
  let r1 := phase1 root.length (walkRoot (Option.some ignored) root liveTree) pkgFiles
  let r2 := phase2 root repo.length fs (walkRoot Option.none repo repoTree) backups
  r1.2 ++ r2.2 ++ phase3 root ignored fs r1.1 ++ phase4 root ignored fs r2.1

/-- Model of `App::run` up to printing: the accumulated entries, sorted by
relative path. -/
def run (root repo : String) (ignored : Gitignore) (liveTree repoTree : List FsTree)
    (fs : String → FileState) (pkgFiles : List String)
    (backups : List (String × String)) : List (Char × String) :=
  sortEntries (collect root repo ignored liveTree repoTree fs pkgFiles backups)

/-- Printed output lines, one per entry: `println!("{} {}{}", c, &root, n)`
renders the marker character, a space, and the install root concatenated
with the relative path. -/
def runLines (root repo : String) (ignored : Gitignore) (liveTree repoTree : List FsTree)
    (fs : String → FileState) (pkgFiles : List String)
    (backups : List (String × String)) : List String :=
  (run root repo ignored liveTree repoTree fs pkgFiles backups).map fun e =>
    Char.toString e.1 ++ " " ++ root ++ e.2

/-- Matcher that never matches anything. -/
def giNever : Gitignore where
  matched := fun _ _ => Match.none
  matchedPathOrAnyParents := fun _ _ => Match.none

/-- Matcher compiled from an ignore rule that excludes `etc/cache/*`,
restricted to the one absolute path the scenario queries. -/
def giCache : Gitignore where
  matched := fun p _ => if p = "/etc/cache/x" then Match.ignore else Match.none
  matchedPathOrAnyParents := fun p _ => if p = "/etc/cache/x" then Match.ignore else Match.none

/-- Filesystem on which stat of `/etc/x` fails with an error other than
nonexistence (permission denied); every other path is missing. -/
def fsPermDenied : String → FileState :=
  fun p => if p = "/etc/x" then FileState.statError else FileState.absent

/-- Filesystem for Scenario B: the live `/etc/baz.conf` hashes to `def456`;
everything else is missing. -/
def fsScenarioB : String → FileState :=
  fun p => if p = "/etc/baz.conf" then FileState.file "def456" else FileState.absent

/-- Filesystem for the double-classification scenario: the mirror copy
`/r/etc/q` hashes to `h1`, the live copy `/etc/q` hashes to `h2`. -/
def fsMirrorDiff : String → FileState :=
  fun p =>
    if p = "/r/etc/q" then FileState.file "h1"
    else if p = "/etc/q" then FileState.file "h2" else FileState.absent

/-- Matcher with every whitelist answer of the direct query coarsened into an
ignore answer; the any-ancestor query is untouched. -/
def demoteWhitelist (g : Gitignore) : Gitignore where
  matched := fun p d =>
    match g.matched p d with
    | Match.whitelist => Match.ignore
    | m => m
  matchedPathOrAnyParents := g.matchedPathOrAnyParents

/-- Matcher that whitelists the single path `/etc/w` and matches nothing
else. -/
def giWhite : Gitignore where
  matched := fun p _ => if p = "/etc/w" then Match.whitelist else Match.none
  matchedPathOrAnyParents := fun _ _ => Match.none

/-- Matcher that ignores the install-root-relative spelling `x` of a path and
matches nothing else; on absolute (root-prefixed) paths it agrees with
`giNever`. -/
def giRelIgnore : Gitignore where
  matched := fun p _ => if p = "x" then Match.ignore else Match.none
  matchedPathOrAnyParents := fun p _ => if p = "x" then Match.ignore else Match.none

/-- Relative paths of the file entries yielded by a traversal, in order. -/
def fileRels (rootLen : Nat) (entries : List (String × Bool)) : List String :=
  entries.filterMap fun e => if e.2 then Option.none else Option.some (e.1.drop rootLen)

theorem charsLe_total : ∀ a b : List Char, charsLe a b = true ∨ charsLe b a = true
  | [], _ => Or.inl rfl
  | _ :: _, [] => Or.inr rfl
  | a :: as, b :: bs => by
    by_cases hab : a = b
    · subst hab
      rcases charsLe_total as bs with h | h
      · left; simpa [charsLe] using h
      · right; simpa [charsLe] using h
    · rcases lt_or_gt_of_ne hab with h | h
      · left
        simp only [charsLe, if_neg hab, decide_eq_true_eq]
        exact h
      · right
        simp only [charsLe, if_neg (Ne.symm hab), decide_eq_true_eq]
        exact h

theorem charsLe_trans :
    ∀ a b c : List Char, charsLe a b = true → charsLe b c = true → charsLe a c = true
  | [], _, _ => fun _ _ => rfl
  | _ :: _, [], _ => fun h _ => by simp [charsLe] at h
  | _ :: _, _ :: _, [] => fun _ h => by simp [charsLe] at h
  | a :: as, b :: bs, c :: cs => by
    intro h1 h2
    by_cases hab : a = b <;> by_cases hbc : b = c
    · subst hab; subst hbc
      simp only [charsLe, if_pos rfl] at h1 h2 ⊢
      exact charsLe_trans as bs cs h1 h2
    · subst hab
      simp only [charsLe, if_neg hbc, decide_eq_true_eq] at h2 ⊢
      exact h2
    · subst hbc
      simp only [charsLe, if_neg hab, decide_eq_true_eq] at h1 ⊢
      exact h1
    · simp only [charsLe, if_neg hab, if_neg hbc, decide_eq_true_eq] at h1 h2
      have hac : a < c := lt_trans h1 h2
      simp only [charsLe, if_neg (ne_of_lt hac), decide_eq_true_eq]
      exact hac

theorem charsLe_antisymm : ∀ a b : List Char, charsLe a b = true → charsLe b a = true → a = b
  | [], [] => fun _ _ => rfl
  | [], _ :: _ => fun _ h => by simp [charsLe] at h
  | _ :: _, [] => fun h _ => by simp [charsLe] at h
  | a :: as, b :: bs => by
    intro h1 h2
    by_cases hab : a = b
    · subst hab
      simp only [charsLe, if_pos rfl] at h1 h2
      rw [charsLe_antisymm as bs h1 h2]
    · simp only [charsLe, if_neg hab, if_neg (Ne.symm hab),
        decide_eq_true_eq] at h1 h2
      exact absurd h2 (lt_asymm h1)

theorem pathLe_total (a b : String) : pathLe a b = true ∨ pathLe b a = true :=
  charsLe_total a.data b.data

theorem pathLe_trans (a b c : String) :
    pathLe a b = true → pathLe b c = true → pathLe a c = true :=
  charsLe_trans a.data b.data c.data

theorem pathLe_antisymm (a b : String) :
    pathLe a b = true → pathLe b a = true → a = b := by
  intro h1 h2
  cases a; cases b
  exact congrArg String.mk (charsLe_antisymm _ _ h1 h2)

theorem pathLe_refl (a : String) : pathLe a a = true := by
  rcases pathLe_total a a with h | h <;> exact h

/-- Membership characterization of the Phase 3 output. -/
theorem mem_phase3 {root : String} {gi : Gitignore} {fs : String → FileState}
    {pkgFiles : List String} {e : Char × String} :
    e ∈ phase3 root gi fs pkgFiles ↔
      e.1 = 'D' ∧ e.2 ∈ pkgFiles ∧
        (gi.matched (root ++ e.2) false).isIgnore = false ∧
        (fs (root ++ e.2)).statOk = false := by
  obtain ⟨c, s⟩ := e
  simp only [phase3, List.mem_filterMap, Option.ite_none_left_eq_some, Option.some.injEq,
    Prod.mk.injEq, Bool.not_eq_true]
  constructor
  · rintro ⟨a, ha, hig, hstat, hc, hs⟩
    subst hs
    exact ⟨hc.symm, ha, hig, hstat⟩
  · rintro ⟨hc, hp, hig, hstat⟩
    exact ⟨s, hp, hig, hstat, hc.symm, rfl⟩

/-- Membership characterization of the Phase 4 output. -/
theorem mem_phase4 {root : String} {gi : Gitignore} {fs : String → FileState}
    {backups : List (String × String)} {e : Char × String} :
    e ∈ phase4 root gi fs backups ↔
      e.1 = 'B' ∧ ∃ expectedHash, (e.2, expectedHash) ∈ backups ∧
        (gi.matchedPathOrAnyParents (root ++ e.2) false).isIgnore = false ∧
        ∃ actualHash, hashFileLogged fs (root ++ e.2) = Option.some actualHash ∧
          expectedHash ≠ actualHash := by
  obtain ⟨c, s⟩ := e
  simp only [phase4, List.mem_filterMap, Option.ite_none_left_eq_some, Bool.not_eq_true]
  constructor
  · rintro ⟨kv, hkv, hig, hf⟩
    rcases hh : hashFileLogged fs (root ++ kv.1) with _ | ah
    · rw [hh] at hf
      cases hf
    · rw [hh] at hf
      simp only [Option.elim_some, Option.ite_none_left_eq_some, Option.some.injEq,
        Prod.mk.injEq] at hf
      obtain ⟨hne, hb, hs⟩ := hf
      subst hs
      exact ⟨hb.symm, kv.2, by simpa using hkv, hig, ah, hh, hne⟩
  · rintro ⟨hc, expectedHash, hkv, hig, actualHash, hh, hne⟩
    refine ⟨(s, expectedHash), hkv, ?_⟩
    simp only at hig hh ⊢
    simp [hig, hh, hne, hc]

/-- Step equation: a directory entry in the mirror traversal is skipped. -/
theorem phase2_cons_dir {root : String} {repoLen : Nat} {fs : String → FileState}
    (q : String) (rest : List (String × Bool)) (bks : List (String × String)) :
    phase2 root repoLen fs ((q, true) :: rest) bks = phase2 root repoLen fs rest bks := by
  simp [phase2]

/-- Step equation: a mirror file whose own hash fails is removed from the
backup map and then skipped. -/
theorem phase2_cons_hash_fail₁ {root : String} {repoLen : Nat} {fs : String → FileState}
    {q : String} (rest : List (String × Bool)) (bks : List (String × String))
    (hh : hashFileLogged fs q = Option.none) :
    phase2 root repoLen fs ((q, false) :: rest) bks =
      phase2 root repoLen fs rest (bks.filter (fun kv => kv.1 ≠ q.drop repoLen)) := by
  simp [phase2, hh]

/-- Step equation: a mirror file whose live counterpart's hash fails is
removed from the backup map and then skipped. -/
theorem phase2_cons_hash_fail₂ {root : String} {repoLen : Nat} {fs : String → FileState}
    {q rh : String} (rest : List (String × Bool)) (bks : List (String × String))
    (hh1 : hashFileLogged fs q = Option.some rh)
    (hh2 : hashFileLogged fs (root ++ q.drop repoLen) = Option.none) :
    phase2 root repoLen fs ((q, false) :: rest) bks =
      phase2 root repoLen fs rest (bks.filter (fun kv => kv.1 ≠ q.drop repoLen)) := by
  simp [phase2, hh1, hh2]

/-- Step equation: a mirror file whose two hashes agree is removed from the
backup map and produces no entry. -/
theorem phase2_cons_hash_eq {root : String} {repoLen : Nat} {fs : String → FileState}
    {q rh ah : String} (rest : List (String × Bool)) (bks : List (String × String))
    (hh1 : hashFileLogged fs q = Option.some rh)
    (hh2 : hashFileLogged fs (root ++ q.drop repoLen) = Option.some ah) (he : rh = ah) :
    phase2 root repoLen fs ((q, false) :: rest) bks =
      phase2 root repoLen fs rest (bks.filter (fun kv => kv.1 ≠ q.drop repoLen)) := by
  simp [phase2, hh1, hh2, he]

/-- Step equation: a mirror file whose two hashes differ is removed from the
backup map and pushes an `('R', path)` entry. -/
theorem phase2_cons_hash_ne {root : String} {repoLen : Nat} {fs : String → FileState}
    {q rh ah : String} (rest : List (String × Bool)) (bks : List (String × String))
    (hh1 : hashFileLogged fs q = Option.some rh)
    (hh2 : hashFileLogged fs (root ++ q.drop repoLen) = Option.some ah) (hne : rh ≠ ah) :
    phase2 root repoLen fs ((q, false) :: rest) bks =
      ((phase2 root repoLen fs rest (bks.filter (fun kv => kv.1 ≠ q.drop repoLen))).1,
        ('R', q.drop repoLen) ::
          (phase2 root repoLen fs rest (bks.filter (fun kv => kv.1 ≠ q.drop repoLen))).2) := by
  simp [phase2, hh1, hh2, hne]

/-- Phase 2 only ever removes pairs from the backup map: any pair still
present afterwards was present before. -/
theorem phase2_key_mem {root : String} {repoLen : Nat} {fs : String → FileState} :
    ∀ (es : List (String × Bool)) (bks : List (String × String)) (kv : String × String),
      kv ∈ (phase2 root repoLen fs es bks).1 → kv ∈ bks
  | [], _, _ => fun h => h
  | (q, isDir) :: rest, bks, kv => by
    have hsub : ∀ kv' : String × String,
        kv' ∈ bks.filter (fun kv' => kv'.1 ≠ q.drop repoLen) → kv' ∈ bks :=
      fun kv' h' => (List.mem_filter.mp h').1
    cases isDir with
    | true =>
      rw [phase2_cons_dir]
      exact phase2_key_mem rest bks kv
    | false =>
      rcases hh1 : hashFileLogged fs q with _ | rh
      · rw [phase2_cons_hash_fail₁ rest bks hh1]
        exact fun h => hsub kv (phase2_key_mem rest _ kv h)
      · rcases hh2 : hashFileLogged fs (root ++ q.drop repoLen) with _ | ah
        · rw [phase2_cons_hash_fail₂ rest bks hh1 hh2]
          exact fun h => hsub kv (phase2_key_mem rest _ kv h)
        · by_cases hd : rh = ah
          · rw [phase2_cons_hash_eq rest bks hh1 hh2 hd]
            exact fun h => hsub kv (phase2_key_mem rest _ kv h)
          · rw [phase2_cons_hash_ne rest bks hh1 hh2 hd]
            exact fun h => hsub kv (phase2_key_mem rest _ kv h)

/-- Phase 2 removes every mirror file's repo-relative path from the backup
map, unconditionally: whether or not its hashes could be computed, no pair
with that key survives. -/
theorem phase2_removed {root : String} {repoLen : Nat} {fs : String → FileState} :
    ∀ (es : List (String × Bool)) (bks : List (String × String)) (p v : String),
      (p, false) ∈ es → (p.drop repoLen, v) ∉ (phase2 root repoLen fs es bks).1
  | [], _, _, _ => fun h => absurd h (List.not_mem_nil _)
  | (q, isDir) :: rest, bks, p, v => by
    intro hin hmem
    have hfilter : ∀ (bks' : List (String × String)),
        (p.drop repoLen, v) ∈ (phase2 root repoLen fs rest
          (bks'.filter (fun kv => kv.1 ≠ p.drop repoLen))).1 → False := by
      intro bks' h
      have h1 := phase2_key_mem rest _ _ h
      have h2 := (List.mem_filter.mp h1).2
      simp at h2
    rcases List.mem_cons.mp hin with heq | hrest
    · injection heq with h1 h2
      subst h1
      subst h2
      rcases hh1 : hashFileLogged fs p with _ | rh
      · rw [phase2_cons_hash_fail₁ rest bks hh1] at hmem
        exact hfilter bks hmem
      · rcases hh2 : hashFileLogged fs (root ++ p.drop repoLen) with _ | ah
        · rw [phase2_cons_hash_fail₂ rest bks hh1 hh2] at hmem
          exact hfilter bks hmem
        · by_cases hd : rh = ah
          · rw [phase2_cons_hash_eq rest bks hh1 hh2 hd] at hmem
            exact hfilter bks hmem
          · rw [phase2_cons_hash_ne rest bks hh1 hh2 hd] at hmem
            exact hfilter bks hmem
    · cases isDir with
      | true =>
        rw [phase2_cons_dir] at hmem
        exact phase2_removed rest bks p v hrest hmem
      | false =>
        rcases hh1 : hashFileLogged fs q with _ | rh
        · rw [phase2_cons_hash_fail₁ rest bks hh1] at hmem
          exact phase2_removed rest _ p v hrest hmem
        · rcases hh2 : hashFileLogged fs (root ++ q.drop repoLen) with _ | ah
          · rw [phase2_cons_hash_fail₂ rest bks hh1 hh2] at hmem
            exact phase2_removed rest _ p v hrest hmem
          · by_cases hd : rh = ah
            · rw [phase2_cons_hash_eq rest bks hh1 hh2 hd] at hmem
              exact phase2_removed rest _ p v hrest hmem
            · rw [phase2_cons_hash_ne rest bks hh1 hh2 hd] at hmem
              exact phase2_removed rest _ p v hrest hmem

/-- Membership characterization of the Phase 2 output: an entry is pushed iff
it is an `'R'` marker on the repo-relative path of some traversed mirror
file whose mirror hash and live hash are both computable and differ. The
pushed entries do not depend on the backup map at all. -/
theorem mem_phase2_out {root : String} {repoLen : Nat} {fs : String → FileState} :
    ∀ (es : List (String × Bool)) (bks : List (String × String)) (e : Char × String),
      e ∈ (phase2 root repoLen fs es bks).2 ↔
        e.1 = 'R' ∧ ∃ p, (p, false) ∈ es ∧ p.drop repoLen = e.2 ∧
          ∃ rh ah, hashFileLogged fs p = Option.some rh ∧
            hashFileLogged fs (root ++ e.2) = Option.some ah ∧ rh ≠ ah
  | [], bks, e => by simp [phase2]
  | (q, isDir) :: rest, bks, e => by
    cases isDir with
    | true =>
      rw [phase2_cons_dir, mem_phase2_out rest bks e]
      constructor
      · rintro ⟨hm, p, hp, hrest⟩
        exact ⟨hm, p, List.mem_cons_of_mem _ hp, hrest⟩
      · rintro ⟨hm, p, hp, hrest⟩
        rcases List.mem_cons.mp hp with heq | hp'
        · cases heq
        · exact ⟨hm, p, hp', hrest⟩
    | false =>
      rcases hh1 : hashFileLogged fs q with _ | rh
      · rw [phase2_cons_hash_fail₁ rest bks hh1, mem_phase2_out rest _ e]
        constructor
        · rintro ⟨hm, p, hp, hrest⟩
          exact ⟨hm, p, List.mem_cons_of_mem _ hp, hrest⟩
        · rintro ⟨hm, p, hp, hpath, rh', ah', hp1, hp2, hne⟩
          rcases List.mem_cons.mp hp with heq | hp'
          · injection heq with h1 h2
            subst h1
            rw [hh1] at hp1
            cases hp1
          · exact ⟨hm, p, hp', hpath, rh', ah', hp1, hp2, hne⟩
      · rcases hh2 : hashFileLogged fs (root ++ q.drop repoLen) with _ | ah
        · rw [phase2_cons_hash_fail₂ rest bks hh1 hh2, mem_phase2_out rest _ e]
          constructor
          · rintro ⟨hm, p, hp, hrest⟩
            exact ⟨hm, p, List.mem_cons_of_mem _ hp, hrest⟩
          · rintro ⟨hm, p, hp, hpath, rh', ah', hp1, hp2, hne⟩
            rcases List.mem_cons.mp hp with heq | hp'
            · injection heq with h1 h2
              subst h1
              rw [← hpath] at hp2
              rw [hh2] at hp2
              cases hp2
            · exact ⟨hm, p, hp', hpath, rh', ah', hp1, hp2, hne⟩
        · by_cases hd : rh = ah
          · rw [phase2_cons_hash_eq rest bks hh1 hh2 hd, mem_phase2_out rest _ e]
            constructor
            · rintro ⟨hm, p, hp, hrest⟩
              exact ⟨hm, p, List.mem_cons_of_mem _ hp, hrest⟩
            · rintro ⟨hm, p, hp, hpath, rh', ah', hp1, hp2, hne⟩
              rcases List.mem_cons.mp hp with heq | hp'
              · injection heq with h1 h2
                subst h1
                rw [hh1] at hp1
                injection hp1 with hrh
                rw [← hpath] at hp2
                rw [hh2] at hp2
                injection hp2 with hah
                subst hrh
                subst hah
                exact absurd hd hne
              · exact ⟨hm, p, hp', hpath, rh', ah', hp1, hp2, hne⟩
          · rw [phase2_cons_hash_ne rest bks hh1 hh2 hd]
            have htail := @mem_phase2_out root repoLen fs rest
              (bks.filter (fun kv => kv.1 ≠ q.drop repoLen)) e
            constructor
            · intro hmem
              rcases List.mem_cons.mp hmem with heq | hp'
              · subst heq
                exact ⟨rfl, q, List.mem_cons_self _ _, rfl, rh, ah, hh1, hh2, hd⟩
              · obtain ⟨hm, p, hp, hrest⟩ := htail.mp hp'
                exact ⟨hm, p, List.mem_cons_of_mem _ hp, hrest⟩
            · rintro ⟨hm, p, hp, hpath, rh', ah', hp1, hp2, hne⟩
              rcases List.mem_cons.mp hp with heq | hp'
              · injection heq with h1 h2
                subst h1
                obtain ⟨c, s⟩ := e
                dsimp only at hm hpath
                subst hm
                subst hpath
                exact List.mem_cons_self _ _
              · exact List.mem_cons_of_mem _
                  (htail.mpr ⟨hm, p, hp', hpath, rh', ah', hp1, hp2, hne⟩)


/-- Claim C2: every path present in the repository mirror is removed from the
backup map during Phase 2 whether or not its hashes are computable (so it can
never yield a `BackupChanged` entry); `RepoChanged` is emitted for a path iff
it is a traversed mirror file whose mirror hash and live hash are both
computable and differ; and no path ever receives both a `RepoChanged` entry
from Phase 2 and a `BackupChanged` entry from Phase 4 run on the remaining
backup map. -/
theorem claim2_mirror_supersedes :
    (∀ (root : String) (repoLen : Nat) (fs : String → FileState)
        (es : List (String × Bool)) (bks : List (String × String)) (p v : String),
      (p, false) ∈ es → (p.drop repoLen, v) ∉ (phase2 root repoLen fs es bks).1) ∧
    (∀ (root : String) (repoLen : Nat) (fs : String → FileState)
        (es : List (String × Bool)) (bks : List (String × String)) (q : String),
      ('R', q) ∈ (phase2 root repoLen fs es bks).2 ↔
        ∃ p, (p, false) ∈ es ∧ p.drop repoLen = q ∧
          ∃ rh ah, hashFileLogged fs p = Option.some rh ∧
            hashFileLogged fs (root ++ q) = Option.some ah ∧ rh ≠ ah) ∧
    (∀ (root : String) (repoLen : Nat) (fs : String → FileState) (gi : Gitignore)
        (es : List (String × Bool)) (bks : List (String × String)) (q : String),
      ¬(('R', q) ∈ (phase2 root repoLen fs es bks).2 ∧
        ('B', q) ∈ phase4 root gi fs (phase2 root repoLen fs es bks).1)) := by
  refine ⟨fun root repoLen fs es bks p v h => phase2_removed es bks p v h, ?_, ?_⟩
  · intro root repoLen fs es bks q
    rw [mem_phase2_out es bks ('R', q)]
    simp
  · rintro root repoLen fs gi es bks q ⟨hR, hB⟩
    obtain ⟨-, exp, hmem, -⟩ := mem_phase4.mp hB
    obtain ⟨-, p, hp, hpath, -⟩ := (mem_phase2_out es bks ('R', q)).mp hR
    have hrm := @phase2_removed root repoLen fs es bks p exp hp
    rw [hpath] at hrm
    exact hrm hmem

/-- Witness for claim C2: the mirror file `x` is removed from the backup map
even though every hash fails (the filesystem is entirely absent). -/
theorem claim2_witness :
    (("x", false) ∈ [("x", false)]) ∧
      ("x".drop 0, "h1") ∉
        (phase2 "/" 0 (fun _ => FileState.absent) [("x", false)] [("x", "h1")]).1 :=
  ⟨by decide,
    claim2_mirror_supersedes.1 "/" 0 (fun _ => FileState.absent)
      [("x", false)] [("x", "h1")] "x" "h1" (by decide)⟩

/-- Claim C1, counterexample: the spec says a stat failure other than
nonexistence (for example permission denied) is logged and the path skipped
with no entry emitted; but `App::run` pattern-matches any `Err(_)` from
`std::fs::metadata` into a `Deleted` entry. Here the live path `/etc/x` is in
a stat-error state that is not nonexistence, yet Phase 3 emits `('D', p)`. -/
theorem claim1_counterexample :
    fsPermDenied "/etc/x" = FileState.statError ∧
      phase3 "/" giNever fsPermDenied ["etc/x"] = [('D', "etc/x")] := by
  constructor
  · decide
  · decide

/-- Claim C1, amended: for every path remaining in the tracked set after
Phase 1, Phase 3 emits `Deleted(p)` exactly when the direct ignore query does
not exclude the absolute path and the stat call on it fails for any reason
(nonexistence or any other per-file I/O error, which are not distinguished,
not logged, and not skipped). -/
theorem claim1_deleted_iff_stat_fails (root : String) (gi : Gitignore)
    (fs : String → FileState) (pkgFiles : List String) (p : String) :
    ('D', p) ∈ phase3 root gi fs pkgFiles ↔
      p ∈ pkgFiles ∧ (gi.matched (root ++ p) false).isIgnore = false ∧
        (fs (root ++ p)).statOk = false := by
  rw [mem_phase3]
  simp

/-- Claim C5: a tracked path whose absolute path is excluded by a direct
ignore match never produces a `Deleted` entry, whatever the filesystem says. -/
theorem claim5_ignored_tracked_not_deleted (root : String) (gi : Gitignore)
    (fs : String → FileState) (pkgFiles : List String) (p : String)
    (h : (gi.matched (root ++ p) false).isIgnore = true) :
    ('D', p) ∉ phase3 root gi fs pkgFiles := by
  rw [mem_phase3]
  rintro ⟨-, -, hig, -⟩
  rw [h] at hig
  cases hig

/-- Witness for claim C5, which is exactly Scenario C: an ignore rule
excludes `etc/cache/*`, the tracked path `etc/cache/x` is absent on disk, and
no `Deleted` entry is produced for it. -/
theorem claim5_witness :
    (giCache.matched ("/" ++ "etc/cache/x") false).isIgnore = true ∧
      ('D', "etc/cache/x") ∉ phase3 "/" giCache (fun _ => FileState.absent) ["etc/cache/x"] :=
  ⟨by decide,
    claim5_ignored_tracked_not_deleted "/" giCache (fun _ => FileState.absent)
      ["etc/cache/x"] "etc/cache/x" (by decide)⟩

unseal List.merge List.mergeSort in
/-- Computation of Scenario B on the full pipeline. -/
theorem scenarioB_lines :
    runLines "/" "/r/" giNever [FsTree.dir "etc" [FsTree.file "baz.conf"]] []
      fsScenarioB ["etc/baz.conf"] [("etc/baz.conf", "abc123")] =
      ["B /etc/baz.conf"] := by
  decide

/-- Claim C4: for a pair (p, expectedHash) in the backup map remaining after
Phase 2, a `BackupChanged` entry is emitted iff the any-ancestor ignore query
does not exclude the absolute path, the live hash is computable, and it
differs from the expected hash (so an excluded path or a failed hash emits
nothing); and, concretely, Scenario B: a sole backup entry `etc/baz.conf`
with recorded hash `abc123` whose live content hashes to `def456`,
unexcluded and not mirrored, yields the output line `B /etc/baz.conf`. -/
theorem claim4_backup_changed :
    (∀ (root : String) (gi : Gitignore) (fs : String → FileState)
        (backups : List (String × String)) (p : String),
      ('B', p) ∈ phase4 root gi fs backups ↔
        ∃ expectedHash, (p, expectedHash) ∈ backups ∧
          (gi.matchedPathOrAnyParents (root ++ p) false).isIgnore = false ∧
          ∃ actualHash, hashFileLogged fs (root ++ p) = Option.some actualHash ∧
            expectedHash ≠ actualHash) ∧
      runLines "/" "/r/" giNever [FsTree.dir "etc" [FsTree.file "baz.conf"]] []
        fsScenarioB ["etc/baz.conf"] [("etc/baz.conf", "abc123")] =
        ["B /etc/baz.conf"] := by
  constructor
  · intro root gi fs backups p
    rw [mem_phase4]
    simp
  · exact scenarioB_lines

/-- Characterization of `Match.isNone`. -/
theorem Match.isNone_iff {m : Match} : m.isNone = true ↔ m = Match.none := by
  cases m <;> simp [Match.isNone]

mutual

/-- The pruned traversal depends on the matcher only through which entries it
reports as unmatched. -/
theorem walkTree_congr (g g' : Gitignore)
    (h : ∀ p d, (g.matched p d).isNone = (g'.matched p d).isNone) :
    ∀ (t : FsTree) (pre : String),
      walkTree (Option.some g) pre t = walkTree (Option.some g') pre t
  | FsTree.file name, pre => by
    simp only [walkTree, keepEntry, h]
  | FsTree.dir name children, pre => by
    simp only [walkTree, keepEntry, h]
    rw [walkForest_congr g g' h children (pre ++ name ++ "/")]

/-- Forest version of `walkTree_congr`. -/
theorem walkForest_congr (g g' : Gitignore)
    (h : ∀ p d, (g.matched p d).isNone = (g'.matched p d).isNone) :
    ∀ (ts : List FsTree) (pre : String),
      walkForest (Option.some g) pre ts = walkForest (Option.some g') pre ts
  | [], _ => rfl
  | t :: ts, pre => by
    simp only [walkForest]
    rw [walkTree_congr g g' h t pre, walkForest_congr g g' h ts pre]

end

mutual

/-- Every entry yielded by the pruned traversal was reported unmatched by the
ignore matcher. -/
theorem walkTree_matched_none (g : Gitignore) :
    ∀ (t : FsTree) (pre : String) (e : String × Bool),
      e ∈ walkTree (Option.some g) pre t → g.matched e.1 e.2 = Match.none
  | FsTree.file name, pre, e => by
    simp only [walkTree, keepEntry]
    by_cases hk : (g.matched (pre ++ name) false).isNone = true
    · rw [if_pos hk]
      intro he
      rcases List.mem_singleton.mp he with rfl
      exact Match.isNone_iff.mp hk
    · rw [if_neg hk]
      intro he
      cases he
  | FsTree.dir name children, pre, e => by
    simp only [walkTree, keepEntry]
    by_cases hk : (g.matched (pre ++ name) true).isNone = true
    · rw [if_pos hk]
      intro he
      rcases List.mem_cons.mp he with rfl | he'
      · exact Match.isNone_iff.mp hk
      · exact walkForest_matched_none g children (pre ++ name ++ "/") e he'

    · rw [if_neg hk]
      intro he
      cases he

/-- Forest version of `walkTree_matched_none`. -/
theorem walkForest_matched_none (g : Gitignore) :
    ∀ (ts : List FsTree) (pre : String) (e : String × Bool),
      e ∈ walkForest (Option.some g) pre ts → g.matched e.1 e.2 = Match.none
  | [], _, e => fun he => absurd he (List.not_mem_nil e)
  | t :: ts, pre, e => by
    simp only [walkForest]
    intro he
    rcases List.mem_append.mp he with h1 | h2
    · exact walkTree_matched_none g t pre e h1
    · exact walkForest_matched_none g ts pre e h2

end

/-- Claim C9: in the Phase 1 live scan an entry is kept only if the matcher
reports no match at all for it, and a whitelist (negation) match prunes
exactly like an ignore match: coarsening every whitelist answer into an
ignore answer leaves the traversal unchanged. -/
theorem claim9_whitelist_prunes (g : Gitignore) (root : String) (ts : List FsTree) :
    (∀ e : String × Bool,
      e ∈ walkRoot (Option.some g) root ts → g.matched e.1 e.2 = Match.none) ∧
    walkRoot (Option.some g) root ts =
      walkRoot (Option.some (demoteWhitelist g)) root ts := by
  constructor
  · intro e he
    rw [walkRoot] at he
    by_cases hk : keepEntry (Option.some g) root true = true
    · rw [if_pos hk] at he
      rcases List.mem_cons.mp he with rfl | he'
      · exact Match.isNone_iff.mp hk
      · exact walkForest_matched_none g ts root e he'
    · rw [if_neg hk] at he
      cases he
  · have h : ∀ p d, (g.matched p d).isNone = ((demoteWhitelist g).matched p d).isNone := by
      intro p d
      show (g.matched p d).isNone =
        (match g.matched p d with
          | Match.whitelist => Match.ignore
          | m => m).isNone
      cases g.matched p d <;> rfl
    rw [walkRoot, walkRoot]
    simp only [keepEntry, h]
    rw [walkForest_congr g (demoteWhitelist g) h ts root]

/-- Witness for claim C9: with a matcher that whitelists `/etc/w`, the
traversal of a tree containing `etc/w` yields the directory `/etc` (which is
unmatched) and omits the whitelisted file. -/
theorem claim9_witness :
    (("/etc", true) ∈ walkRoot (Option.some giWhite) "/" [FsTree.dir "etc" [FsTree.file "w"]]) ∧
      giWhite.matched "/etc" true = Match.none :=
  ⟨by decide,
    (claim9_whitelist_prunes giWhite "/" [FsTree.dir "etc" [FsTree.file "w"]]).1
      ("/etc", true) (by decide)⟩

mutual

/-- The pruned traversal below a root-prefixed directory depends on the
matcher only through its answers on root-prefixed paths. -/
theorem walkTree_agree (root : String) (g g' : Gitignore)
    (h : ∀ s d, g.matched (root ++ s) d = g'.matched (root ++ s) d) :
    ∀ (t : FsTree) (s : String),
      walkTree (Option.some g) (root ++ s) t = walkTree (Option.some g') (root ++ s) t
  | FsTree.file name, s => by
    simp only [walkTree, keepEntry]
    rw [String.append_assoc]
    simp only [h (s ++ name) false]
  | FsTree.dir name children, s => by
    simp only [walkTree, keepEntry]
    rw [String.append_assoc]
    simp only [h (s ++ name) true]
    have hc := walkForest_agree root g g' h children ((s ++ name) ++ "/")
    rw [← String.append_assoc] at hc
    rw [hc]

/-- Forest version of `walkTree_agree`. -/
theorem walkForest_agree (root : String) (g g' : Gitignore)
    (h : ∀ s d, g.matched (root ++ s) d = g'.matched (root ++ s) d) :
    ∀ (ts : List FsTree) (s : String),
      walkForest (Option.some g) (root ++ s) ts = walkForest (Option.some g') (root ++ s) ts
  | [], _ => rfl
  | t :: ts, s => by
    simp only [walkForest]
    rw [walkTree_agree root g g' h t s, walkForest_agree root g g' h ts s]

end

/-- The pruned live traversal from the install root depends on the matcher
only through its answers on root-prefixed paths. -/
theorem walkRoot_agree (root : String) (g g' : Gitignore)
    (h : ∀ s d, g.matched (root ++ s) d = g'.matched (root ++ s) d)
    (ts : List FsTree) :
    walkRoot (Option.some g) root ts = walkRoot (Option.some g') root ts := by
  rw [walkRoot, walkRoot]
  have hroot := h "" true
  rw [String.append_empty] at hroot
  simp only [keepEntry, hroot]
  have hc := walkForest_agree root g g' h ts ""
  rw [String.append_empty] at hc
  rw [hc]

/-- Claim C10: the builder's pattern root is the filesystem root `/`, and the
whole run's output depends on the ignore matcher only through its answers on
absolute, install-root-prefixed paths — two matchers that agree on every
root-prefixed path (in both query modes) give identical output, however they
differ on install-root-relative spellings. -/
theorem claim10_queries_absolute :
    buildGitignoreRoot = "/" ∧
    ∀ (root repo : String) (g g' : Gitignore) (liveTree repoTree : List FsTree)
      (fs : String → FileState) (pkgFiles : List String)
      (backups : List (String × String)),
      (∀ s d, g.matched (root ++ s) d = g'.matched (root ++ s) d) →
      (∀ s d, g.matchedPathOrAnyParents (root ++ s) d = g'.matchedPathOrAnyParents (root ++ s) d) →
      run root repo g liveTree repoTree fs pkgFiles backups =
        run root repo g' liveTree repoTree fs pkgFiles backups := by
  refine ⟨rfl, ?_⟩
  intro root repo g g' liveTree repoTree fs pkgFiles backups h1 h2
  have hw := walkRoot_agree root g g' h1 liveTree
  have h3 : phase3 root g fs = phase3 root g' fs := by
    funext pkgs
    unfold phase3
    congr 1
    funext p
    simp only [h1 p false]
  have h4 : phase4 root g fs = phase4 root g' fs := by
    funext bks
    unfold phase4
    congr 1
    funext kv
    simp only [h2 kv.1 false]
  rw [run, run, collect, collect, hw, h3, h4]

/-- Witness for claim C10: `giRelIgnore` ignores the relative spelling `x`
while `giNever` matches nothing, yet the two runs coincide, because every
query is made on the absolute root-prefixed path. -/
theorem claim10_witness :
    giRelIgnore.matched "x" false = Match.ignore ∧
      giNever.matched "x" false = Match.none ∧
      run "/" "/r/" giNever [FsTree.file "x"] [] (fun _ => FileState.absent) ["x"] [] =
        run "/" "/r/" giRelIgnore [FsTree.file "x"] [] (fun _ => FileState.absent) ["x"] [] :=
  ⟨by decide, by decide,
    claim10_queries_absolute.2 "/" "/r/" giNever giRelIgnore [FsTree.file "x"] []
      (fun _ => FileState.absent) ["x"] []
      (by
        intro s d
        show Match.none = if "/" ++ s = "x" then Match.ignore else Match.none
        rw [if_neg]
        intro hcontra
        have hd := congrArg String.data hcontra
        rw [String.data_append] at hd
        simp at hd)
      (by
        intro s d
        show Match.none = if "/" ++ s = "x" then Match.ignore else Match.none
        rw [if_neg]
        intro hcontra
        have hd := congrArg String.data hcontra
        rw [String.data_append] at hd
        simp at hd)⟩

unseal List.merge List.mergeSort in
/-- Claim C8: one path can receive two classifications and two output lines:
the file `etc/q` is in the mirror with hash `h1`, is owned by no package, and
its live copy hashes to `h2`; it is emitted as Untracked in Phase 1 and as
RepoChanged in Phase 2, and the reporter prints both lines undeduplicated. -/
theorem claim8_double_classification :
    runLines "/" "/r/" giNever [FsTree.dir "etc" [FsTree.file "q"]]
      [FsTree.dir "etc" [FsTree.file "q"]] fsMirrorDiff [] [] =
      ["? /etc/q", "R /etc/q"] := by
  decide

/-- Step equation: Phase 1 skips a directory entry. -/
theorem phase1_cons_dir (rootLen : Nat) (q : String) (rest : List (String × Bool))
    (pkgs : List String) :
    phase1 rootLen ((q, true) :: rest) pkgs = phase1 rootLen rest pkgs := by
  simp [phase1]

/-- Step equation: a live file whose relative path is tracked is removed from
the tracked set and produces no entry. -/
theorem phase1_cons_hit {rootLen : Nat} {q : String} {pkgs : List String}
    (rest : List (String × Bool)) (h : q.drop rootLen ∈ pkgs) :
    phase1 rootLen ((q, false) :: rest) pkgs =
      phase1 rootLen rest (pkgs.filter (· ≠ q.drop rootLen)) := by
  simp [phase1, h]

/-- Step equation: a live file whose relative path is untracked pushes an
`('?', path)` entry. -/
theorem phase1_cons_miss {rootLen : Nat} {q : String} {pkgs : List String}
    (rest : List (String × Bool)) (h : q.drop rootLen ∉ pkgs) :
    phase1 rootLen ((q, false) :: rest) pkgs =
      ((phase1 rootLen rest pkgs).1, ('?', q.drop rootLen) :: (phase1 rootLen rest pkgs).2) := by
  simp [phase1, h]

/-- Step equation for `fileRels` on a directory entry. -/
theorem fileRels_cons_dir (rootLen : Nat) (q : String) (rest : List (String × Bool)) :
    fileRels rootLen ((q, true) :: rest) = fileRels rootLen rest := by
  simp [fileRels]

/-- Step equation for `fileRels` on a file entry. -/
theorem fileRels_cons_file (rootLen : Nat) (q : String) (rest : List (String × Bool)) :
    fileRels rootLen ((q, false) :: rest) = q.drop rootLen :: fileRels rootLen rest := by
  simp [fileRels]

/-- A file entry's relative path is among the traversal's file paths. -/
theorem mem_fileRels {rootLen : Nat} {p : String} {entries : List (String × Bool)}
    (hp : (p, false) ∈ entries) : p.drop rootLen ∈ fileRels rootLen entries :=
  List.mem_filterMap.mpr ⟨(p, false), hp, by simp⟩

/-- Characterization of the tracked set remaining after Phase 1: exactly the
initially tracked paths whose relative path the traversal never yielded as a
file. -/
theorem mem_phase1_fst {rootLen : Nat} :
    ∀ (es : List (String × Bool)) (pkgs : List String) (x : String),
      x ∈ (phase1 rootLen es pkgs).1 ↔ x ∈ pkgs ∧ x ∉ fileRels rootLen es
  | [], pkgs, x => by simp [phase1, fileRels]
  | (q, d) :: rest, pkgs, x => by
    cases d with
    | true =>
      rw [phase1_cons_dir, fileRels_cons_dir]
      exact mem_phase1_fst rest pkgs x
    | false =>
      rw [fileRels_cons_file]
      by_cases hm : q.drop rootLen ∈ pkgs
      · rw [phase1_cons_hit rest hm]
        rw [mem_phase1_fst rest _ x]
        constructor
        · rintro ⟨hx, hnx⟩
          have hx' := List.mem_filter.mp hx
          refine ⟨hx'.1, ?_⟩
          intro hcon
          rcases List.mem_cons.mp hcon with heq | h'
          · have hd := hx'.2
            rw [heq] at hd
            simp at hd
          · exact hnx h'
        · rintro ⟨hx, hnx⟩
          have hne : x ≠ q.drop rootLen := fun heq => hnx (heq ▸ List.mem_cons_self _ _)
          exact ⟨List.mem_filter.mpr ⟨hx, by simpa using hne⟩,
            fun h' => hnx (List.mem_cons_of_mem _ h')⟩
      · rw [phase1_cons_miss rest hm]
        have hiff := @mem_phase1_fst rootLen rest pkgs x
        constructor
        · intro hx
          have hx' : x ∈ (phase1 rootLen rest pkgs).1 := hx
          obtain ⟨h1, h2⟩ := hiff.mp hx'
          refine ⟨h1, ?_⟩
          intro hcon
          rcases List.mem_cons.mp hcon with heq | h'
          · exact hm (heq ▸ h1)
          · exact h2 h'
        · rintro ⟨h1, h2⟩
          show x ∈ (phase1 rootLen rest pkgs).1
          exact hiff.mpr ⟨h1, fun h' => h2 (List.mem_cons_of_mem _ h')⟩

/-- Every entry Phase 1 pushes carries the `'?'` marker and the relative path
of some traversed file. -/
theorem phase1_out_mem {rootLen : Nat} :
    ∀ (es : List (String × Bool)) (pkgs : List String) (e : Char × String),
      e ∈ (phase1 rootLen es pkgs).2 → e.1 = '?' ∧ e.2 ∈ fileRels rootLen es
  | [], pkgs, e => by simp [phase1]
  | (q, d) :: rest, pkgs, e => by
    cases d with
    | true =>
      rw [phase1_cons_dir, fileRels_cons_dir]
      exact phase1_out_mem rest pkgs e
    | false =>
      rw [fileRels_cons_file]
      by_cases hm : q.drop rootLen ∈ pkgs
      · rw [phase1_cons_hit rest hm]
        intro he
        obtain ⟨h1, h2⟩ := phase1_out_mem rest _ e he
        exact ⟨h1, List.mem_cons_of_mem _ h2⟩
      · rw [phase1_cons_miss rest hm]
        intro he
        have he' : e ∈ ('?', q.drop rootLen) :: (phase1 rootLen rest pkgs).2 := he
        rcases List.mem_cons.mp he' with heq | h'
        · subst heq
          exact ⟨rfl, List.mem_cons_self _ _⟩
        · obtain ⟨h1, h2⟩ := phase1_out_mem rest pkgs e h'
          exact ⟨h1, List.mem_cons_of_mem _ h2⟩

/-- When the traversal yields each file path once, a yielded path that is
tracked produces no entry, and one that is untracked produces exactly one. -/
theorem phase1_count {rootLen : Nat} :
    ∀ (es : List (String × Bool)) (pkgs : List String) (q : String),
      (fileRels rootLen es).Nodup → q ∈ fileRels rootLen es →
      ((q ∈ pkgs → ('?', q) ∉ (phase1 rootLen es pkgs).2) ∧
        (q ∉ pkgs → (phase1 rootLen es pkgs).2.count ('?', q) = 1))
  | [], pkgs, q => by simp [fileRels]
  | (p0, d) :: rest, pkgs, q => by
    cases d with
    | true =>
      rw [phase1_cons_dir, fileRels_cons_dir]
      exact phase1_count rest pkgs q
    | false =>
      rw [fileRels_cons_file]
      intro hnd hq
      have hnd' : (fileRels rootLen rest).Nodup := (List.nodup_cons.mp hnd).2
      have hnotin : p0.drop rootLen ∉ fileRels rootLen rest := (List.nodup_cons.mp hnd).1
      rcases List.mem_cons.mp hq with heq | hq'
      · subst heq
        constructor
        · intro hqin
          rw [phase1_cons_hit rest hqin]
          intro hcon
          exact hnotin (phase1_out_mem rest _ _ hcon).2
        · intro hqout
          rw [phase1_cons_miss rest hqout]
          show List.count ('?', p0.drop rootLen)
            (('?', p0.drop rootLen) :: (phase1 rootLen rest pkgs).2) = 1
          rw [List.count_cons_self]
          have hno : ('?', p0.drop rootLen) ∉ (phase1 rootLen rest pkgs).2 := fun hcon =>
            hnotin (phase1_out_mem rest pkgs _ hcon).2
          rw [List.count_eq_zero.mpr hno]
      · have hqne : q ≠ p0.drop rootLen := fun heq => hnotin (heq ▸ hq')
        by_cases hm : p0.drop rootLen ∈ pkgs
        · rw [phase1_cons_hit rest hm]
          have hpk_iff : q ∈ pkgs.filter (· ≠ p0.drop rootLen) ↔ q ∈ pkgs := by
            rw [List.mem_filter]
            simp [hqne]
          obtain ⟨ih1, ih2⟩ := phase1_count rest (pkgs.filter (· ≠ p0.drop rootLen)) q hnd' hq'
          constructor
          · intro hqin
            exact ih1 (hpk_iff.mpr hqin)
          · intro hqout
            exact ih2 (fun hcon => hqout (hpk_iff.mp hcon))
        · rw [phase1_cons_miss rest hm]
          obtain ⟨ih1, ih2⟩ := phase1_count rest pkgs q hnd' hq'
          have hne2 : ('?', q) ≠ ('?', p0.drop rootLen) := by simp [hqne]
          constructor
          · intro hqin hcon
            have hcon' : ('?', q) ∈ ('?', p0.drop rootLen) :: (phase1 rootLen rest pkgs).2 := hcon
            rcases List.mem_cons.mp hcon' with heq2 | h'
            · exact hne2 heq2
            · exact ih1 hqin h'
          · intro hqout
            show List.count ('?', q)
              (('?', p0.drop rootLen) :: (phase1 rootLen rest pkgs).2) = 1
            rw [List.count_cons_of_ne hne2, ih2 hqout]

/-- Claim C3: during the Phase 1 live scan, every non-directory path yielded
by the traversal either has its relative path removed from the tracked set
with no entry emitted (when tracked), or gives rise to exactly one Untracked
entry (when untracked) — provided the traversal yields each file path once,
as a filesystem walk does. -/
theorem claim3_live_scan (rootLen : Nat) (entries : List (String × Bool))
    (pkgFiles : List String) (p : String)
    (hnd : (fileRels rootLen entries).Nodup) (hp : (p, false) ∈ entries) :
    (p.drop rootLen ∈ pkgFiles →
        p.drop rootLen ∉ (phase1 rootLen entries pkgFiles).1 ∧
        ('?', p.drop rootLen) ∉ (phase1 rootLen entries pkgFiles).2) ∧
    (p.drop rootLen ∉ pkgFiles →
        (phase1 rootLen entries pkgFiles).2.count ('?', p.drop rootLen) = 1) := by
  have hrel := @mem_fileRels rootLen p entries hp
  obtain ⟨h1, h2⟩ := phase1_count entries pkgFiles (p.drop rootLen) hnd hrel
  refine ⟨fun hin => ⟨?_, h1 hin⟩, h2⟩
  rw [mem_phase1_fst]
  rintro ⟨-, hno⟩
  exact hno hrel

/-- Witness for claim C3: the traversal yields the single untracked file
`/a`, and exactly one `('?', "a")` entry is emitted. -/
theorem claim3_witness :
    (fileRels 1 [("/a", false)]).Nodup ∧ (("/a", false) ∈ [("/a", false)]) ∧
      ("/a".drop 1 ∉ ([] : List String)) ∧
      (phase1 1 [("/a", false)] []).2.count ('?', "/a".drop 1) = 1 :=
  ⟨by decide, by decide, by decide,
    (claim3_live_scan 1 [("/a", false)] [] "/a" (by decide) (by decide)).2 (by decide)⟩

/-- Transitivity of the entry order used by the reporter's sort. -/
theorem entryLe_trans (a b c : Char × String) :
    pathLe a.2 b.2 = true → pathLe b.2 c.2 = true → pathLe a.2 c.2 = true :=
  pathLe_trans a.2 b.2 c.2

/-- Totality of the entry order used by the reporter's sort. -/
theorem entryLe_total (a b : Char × String) :
    (pathLe a.2 b.2 || pathLe b.2 a.2) = true := by
  rcases pathLe_total a.2 b.2 with h | h <;> simp [h]

/-- The reporter's sort is a permutation of its input: no deduplication. -/
theorem sortEntries_perm (l : List (Char × String)) : (sortEntries l).Perm l :=
  List.mergeSort_perm l _

/-- The reporter's sort output is ordered by relative path. -/
theorem sortEntries_sorted (l : List (Char × String)) :
    (sortEntries l).Pairwise (fun a b => pathLe a.2 b.2 = true) :=
  List.sorted_mergeSort entryLe_trans entryLe_total l

/-- Every accumulated entry carries one of the four markers. -/
theorem collect_markers (root repo : String) (gi : Gitignore) (liveTree repoTree : List FsTree)
    (fs : String → FileState) (pkgFiles : List String) (backups : List (String × String)) :
    ∀ e ∈ collect root repo gi liveTree repoTree fs pkgFiles backups,
      e.1 = '?' ∨ e.1 = 'R' ∨ e.1 = 'D' ∨ e.1 = 'B' := by
  intro e he
  simp only [collect] at he
  rcases List.mem_append.mp he with h123 | h4
  · rcases List.mem_append.mp h123 with h12 | h3
    · rcases List.mem_append.mp h12 with h1 | h2
      · exact Or.inl (phase1_out_mem _ _ e h1).1
      · exact Or.inr (Or.inl ((mem_phase2_out _ _ e).mp h2).1)
    · exact Or.inr (Or.inr (Or.inl (mem_phase3.mp h3).1))
  · exact Or.inr (Or.inr (Or.inr (mem_phase4.mp h4).1))

/-- Claim C6: the printed output is the accumulated entry list sorted
ascending by relative path under plain lexicographic ordering (a permutation
of the accumulated entries — nothing is deduplicated), each entry carrying
one of the markers `?`, `R`, `D`, `B` for Untracked, RepoChanged, Deleted,
BackupChanged, printed as the marker, a space, and the install root
concatenated with the relative path. -/
theorem claim6_reporter (root repo : String) (gi : Gitignore) (liveTree repoTree : List FsTree)
    (fs : String → FileState) (pkgFiles : List String) (backups : List (String × String)) :
    (run root repo gi liveTree repoTree fs pkgFiles backups).Pairwise
        (fun a b => pathLe a.2 b.2 = true) ∧
      (run root repo gi liveTree repoTree fs pkgFiles backups).Perm
        (collect root repo gi liveTree repoTree fs pkgFiles backups) ∧
      (∀ e ∈ collect root repo gi liveTree repoTree fs pkgFiles backups,
        e.1 = '?' ∨ e.1 = 'R' ∨ e.1 = 'D' ∨ e.1 = 'B') ∧
      runLines root repo gi liveTree repoTree fs pkgFiles backups =
        (run root repo gi liveTree repoTree fs pkgFiles backups).map
          (fun e => Char.toString e.1 ++ " " ++ root ++ e.2) :=
  ⟨sortEntries_sorted _, sortEntries_perm _,
    collect_markers root repo gi liveTree repoTree fs pkgFiles backups, rfl⟩

/-- Two sorted entry lists whose key-indexed sublists agree are equal; this
pins down the output of any stable sort. -/
theorem sorted_key_unique :
    ∀ (xs ys : List (Char × String)),
      xs.Pairwise (fun a b => pathLe a.2 b.2 = true) →
      ys.Pairwise (fun a b => pathLe a.2 b.2 = true) →
      (∀ k : String, xs.filter (fun e => e.2 == k) = ys.filter (fun e => e.2 == k)) →
      xs = ys
  | [], [], _, _, _ => rfl
  | [], b :: ys, _, _, hf => by
    have hm : b ∈ List.filter (fun e => e.2 == b.2) ([] : List (Char × String)) := by
      rw [hf b.2]
      exact List.mem_filter.mpr ⟨List.mem_cons_self _ _, by simp⟩
    cases hm
  | a :: xs, [], _, _, hf => by
    have hm : a ∈ List.filter (fun e => e.2 == a.2) ([] : List (Char × String)) := by
      rw [← hf a.2]
      exact List.mem_filter.mpr ⟨List.mem_cons_self _ _, by simp⟩
    cases hm
  | a :: xs, b :: ys, hxs, hys, hf => by
    have hxa := List.pairwise_cons.mp hxs
    have hyb := List.pairwise_cons.mp hys
    have hamem : a ∈ b :: ys := by
      have hm : a ∈ (b :: ys).filter (fun e => e.2 == a.2) := by
        rw [← hf a.2]
        exact List.mem_filter.mpr ⟨List.mem_cons_self _ _, by simp⟩
      exact (List.mem_filter.mp hm).1
    have hbmem : b ∈ a :: xs := by
      have hm : b ∈ (a :: xs).filter (fun e => e.2 == b.2) := by
        rw [hf b.2]
        exact List.mem_filter.mpr ⟨List.mem_cons_self _ _, by simp⟩
      exact (List.mem_filter.mp hm).1
    have hab : pathLe a.2 b.2 = true := by
      rcases List.mem_cons.mp hbmem with heq | hmem
      · rw [heq]
        exact pathLe_refl a.2
      · exact hxa.1 b hmem
    have hba : pathLe b.2 a.2 = true := by
      rcases List.mem_cons.mp hamem with heq | hmem
      · rw [heq]
        exact pathLe_refl b.2
      · exact hyb.1 a hmem
    have hkey : a.2 = b.2 := pathLe_antisymm a.2 b.2 hab hba
    have h := hf a.2
    rw [@List.filter_cons_of_pos _ (fun e => e.2 == a.2) a xs (by simp),
      @List.filter_cons_of_pos _ (fun e => e.2 == a.2) b ys (by simp [hkey])] at h
    injection h with h1 h2
    subst h1
    have htail : xs = ys := by
      apply sorted_key_unique xs ys hxa.2 hyb.2
      intro k
      by_cases hk : a.2 = k
      · subst hk
        exact h2
      · have h := hf k
        rw [@List.filter_cons_of_neg _ (fun e => e.2 == k) a xs (by simp [hk]),
          @List.filter_cons_of_neg _ (fun e => e.2 == k) a ys (by simp [hk])] at h
        exact h
    rw [htail]

/-- Stability of the reporter's sort, phrased through key filters: the
subsequence of entries with any given relative path is untouched. -/
theorem sortEntries_filter_key (l : List (Char × String)) (k : String) :
    (sortEntries l).filter (fun e => e.2 == k) = l.filter (fun e => e.2 == k) := by
  have hall : ∀ e ∈ l.filter (fun e => e.2 == k), (fun e : Char × String => e.2 == k) e = true :=
    fun e he => (List.mem_filter.mp he).2
  have hpw : (l.filter (fun e => e.2 == k)).Pairwise (fun a b => pathLe a.2 b.2 = true) := by
    apply List.pairwise_of_forall_mem_list
    intro a ha b hb
    have ha' : a.2 = k := by simpa using (List.mem_filter.mp ha).2
    have hb' : b.2 = k := by simpa using (List.mem_filter.mp hb).2
    rw [ha', hb']
    exact pathLe_refl k
  have hstable : (l.filter (fun e => e.2 == k)).Sublist (sortEntries l) :=
    List.sublist_mergeSort entryLe_trans entryLe_total hpw (List.filter_sublist l)
  have h1 : (l.filter (fun e => e.2 == k)).Sublist ((sortEntries l).filter (fun e => e.2 == k)) := by
    have h := hstable.filter (fun e => e.2 == k)
    rwa [List.filter_eq_self.mpr hall] at h
  have h2 : ((sortEntries l).filter (fun e => e.2 == k)).Perm (l.filter (fun e => e.2 == k)) :=
    (sortEntries_perm l).filter _
  exact (h1.eq_of_length h2.length_eq.symm).symm

/-- A list whose keys are distinct has at most one entry with any given key. -/
theorem filter_key_length :
    ∀ (l : List (Char × String)), (l.map Prod.snd).Nodup → ∀ k : String,
      (l.filter (fun e => e.2 == k)).length ≤ 1
  | [], _, k => by simp
  | a :: l, hnd, k => by
    rw [List.map_cons, List.nodup_cons] at hnd
    by_cases hk : (a.2 == k) = true
    · rw [@List.filter_cons_of_pos _ (fun e => e.2 == k) a l hk]
      have hnil : l.filter (fun e => e.2 == k) = [] := by
        rw [List.filter_eq_nil_iff]
        intro b hb hbk
        apply hnd.1
        have hbk' : b.2 = k := by simpa using hbk
        have hak : a.2 = k := by simpa using hk
        rw [hak, ← hbk']
        exact List.mem_map_of_mem _ hb
      rw [hnil]
      simp
    · rw [@List.filter_cons_of_neg _ (fun e => e.2 == k) a l hk]
      exact filter_key_length l hnd.2 k

/-- Permutations of lists with at most one element are equalities. -/
theorem perm_eq_of_length_le_one {l1 l2 : List (Char × String)}
    (hp : l1.Perm l2) (hl : l1.length ≤ 1) : l1 = l2 := by
  cases l1 with
  | nil => exact (List.Perm.eq_nil hp.symm).symm
  | cons a l1' =>
    cases l1' with
    | nil => exact (List.perm_singleton.mp hp.symm).symm
    | cons b l1'' => simp at hl

/-- The keys of the Phase 3 entries form a subsequence of the iterated
tracked set. -/
theorem phase3_keys_sublist (root : String) (gi : Gitignore) (fs : String → FileState) :
    ∀ pkgs : List String, ((phase3 root gi fs pkgs).map Prod.snd).Sublist pkgs
  | [] => by simp [phase3]
  | p :: rest => by
    have ih := phase3_keys_sublist root gi fs rest
    by_cases h1 : (gi.matched (root ++ p) false).isIgnore = true
    · have heq : phase3 root gi fs (p :: rest) = phase3 root gi fs rest := by
        simp [phase3, List.filterMap_cons, h1]
      rw [heq]
      exact ih.cons p
    · rw [Bool.not_eq_true] at h1
      by_cases h2 : (fs (root ++ p)).statOk = true
      · have heq : phase3 root gi fs (p :: rest) = phase3 root gi fs rest := by
          simp [phase3, List.filterMap_cons, h1, h2]
        rw [heq]
        exact ih.cons p
      · rw [Bool.not_eq_true] at h2
        have heq : phase3 root gi fs (p :: rest) = ('D', p) :: phase3 root gi fs rest := by
          simp [phase3, List.filterMap_cons, h1, h2]
        rw [heq, List.map_cons]
        exact ih.cons₂ p

/-- The keys of the Phase 4 entries form a subsequence of the keys of the
iterated backup map. -/
theorem phase4_keys_sublist (root : String) (gi : Gitignore) (fs : String → FileState) :
    ∀ bks : List (String × String),
      ((phase4 root gi fs bks).map Prod.snd).Sublist (bks.map Prod.fst)
  | [] => by simp [phase4]
  | kv :: rest => by
    have ih := phase4_keys_sublist root gi fs rest
    simp only [List.map_cons]
    by_cases h1 : (gi.matchedPathOrAnyParents (root ++ kv.1) false).isIgnore = true
    · have heq : phase4 root gi fs (kv :: rest) = phase4 root gi fs rest := by
        simp [phase4, List.filterMap_cons, h1]
      rw [heq]
      exact ih.cons kv.1
    · rw [Bool.not_eq_true] at h1
      rcases hh : hashFileLogged fs (root ++ kv.1) with _ | ah
      · have heq : phase4 root gi fs (kv :: rest) = phase4 root gi fs rest := by
          simp [phase4, List.filterMap_cons, h1, hh]
        rw [heq]
        exact ih.cons kv.1
      · by_cases h2 : kv.2 = ah
        · have heq : phase4 root gi fs (kv :: rest) = phase4 root gi fs rest := by
            simp [phase4, List.filterMap_cons, h1, hh, h2]
          rw [heq]
          exact ih.cons kv.1
        · have heq : phase4 root gi fs (kv :: rest) = ('B', kv.1) :: phase4 root gi fs rest := by
            simp [phase4, List.filterMap_cons, h1, hh, h2]
          rw [heq, List.map_cons]
          exact ih.cons₂ kv.1

/-- Sorting is insensitive to permutations of the two parallel blocks, as
long as each block's keys are distinct: the sorted result of the sequential
prefix followed by any orderings of the Phase 3 and Phase 4 blocks is
fixed. -/
theorem sortEntries_blocks (s1 s2 a a' b b' : List (Char × String))
    (ha : a.Perm a') (hb : b.Perm b')
    (hka : (a.map Prod.snd).Nodup) (hkb : (b.map Prod.snd).Nodup) :
    sortEntries (s1 ++ s2 ++ a ++ b) = sortEntries (s1 ++ s2 ++ a' ++ b') := by
  refine sorted_key_unique _ _ (sortEntries_sorted _) (sortEntries_sorted _) ?_
  intro k
  rw [sortEntries_filter_key, sortEntries_filter_key]
  simp only [List.filter_append]
  have hfa : a.filter (fun e => e.2 == k) = a'.filter (fun e => e.2 == k) :=
    perm_eq_of_length_le_one (ha.filter _) (filter_key_length a hka k)
  have hfb : b.filter (fun e => e.2 == k) = b'.filter (fun e => e.2 == k) :=
    perm_eq_of_length_le_one (hb.filter _) (filter_key_length b hkb k)
  rw [hfa, hfb]

/-- The tracked set remaining after Phase 1 is a subsequence of the initial
tracked set. -/
theorem phase1_fst_sublist {rootLen : Nat} :
    ∀ (es : List (String × Bool)) (pkgs : List String), ((phase1 rootLen es pkgs).1).Sublist pkgs
  | [], pkgs => List.Sublist.refl pkgs
  | (q, d) :: rest, pkgs => by
    cases d with
    | true =>
      rw [phase1_cons_dir]
      exact phase1_fst_sublist rest pkgs
    | false =>
      by_cases hm : q.drop rootLen ∈ pkgs
      · rw [phase1_cons_hit rest hm]
        exact (phase1_fst_sublist rest _).trans (List.filter_sublist pkgs)
      · rw [phase1_cons_miss rest hm]
        exact phase1_fst_sublist rest pkgs

/-- The backup map remaining after Phase 2 is a subsequence of the initial
backup map. -/
theorem phase2_fst_sublist {root : String} {repoLen : Nat} {fs : String → FileState} :
    ∀ (es : List (String × Bool)) (bks : List (String × String)),
      ((phase2 root repoLen fs es bks).1).Sublist bks
  | [], bks => List.Sublist.refl bks
  | (q, d) :: rest, bks => by
    cases d with
    | true =>
      rw [phase2_cons_dir]
      exact phase2_fst_sublist rest bks
    | false =>
      rcases hh1 : hashFileLogged fs q with _ | rh
      · rw [phase2_cons_hash_fail₁ rest bks hh1]
        exact (phase2_fst_sublist rest _).trans (List.filter_sublist bks)
      · rcases hh2 : hashFileLogged fs (root ++ q.drop repoLen) with _ | ah
        · rw [phase2_cons_hash_fail₂ rest bks hh1 hh2]
          exact (phase2_fst_sublist rest _).trans (List.filter_sublist bks)
        · by_cases hd : rh = ah
          · rw [phase2_cons_hash_eq rest bks hh1 hh2 hd]
            exact (phase2_fst_sublist rest _).trans (List.filter_sublist bks)
          · rw [phase2_cons_hash_ne rest bks hh1 hh2 hd]
            exact (phase2_fst_sublist rest _).trans (List.filter_sublist bks)

/-- Claim C7: for a fixed filesystem, manifest, and matcher, the printed
result never depends on the iteration order of the remaining tracked set and
backup map in the parallel Phases 3 and 4: assembling the run with any
permutations of those collections and sorting yields exactly the canonical
output, so two complete runs agree. Requires the manifest's set and map to
have no duplicate keys, which holds for a `HashSet` and `HashMap`. -/
theorem claim7_deterministic (root repo : String) (gi : Gitignore)
    (liveTree repoTree : List FsTree) (fs : String → FileState)
    (pkgFiles : List String) (backups : List (String × String))
    (t3 : List String) (b4 : List (String × String))
    (h3 : t3.Perm (phase1 root.length (walkRoot (Option.some gi) root liveTree) pkgFiles).1)
    (h4 : b4.Perm (phase2 root repo.length fs (walkRoot Option.none repo repoTree) backups).1)
    (hnd : pkgFiles.Nodup) (hkb : (backups.map Prod.fst).Nodup) :
    sortEntries
        ((phase1 root.length (walkRoot (Option.some gi) root liveTree) pkgFiles).2 ++
          (phase2 root repo.length fs (walkRoot Option.none repo repoTree) backups).2 ++
          phase3 root gi fs t3 ++ phase4 root gi fs b4) =
      run root repo gi liveTree repoTree fs pkgFiles backups := by
  have hr1nd : (phase1 root.length (walkRoot (Option.some gi) root liveTree) pkgFiles).1.Nodup :=
    (phase1_fst_sublist _ _).nodup hnd
  have ht3nd : t3.Nodup := h3.nodup_iff.mpr hr1nd
  have hr2nd : ((phase2 root repo.length fs (walkRoot Option.none repo repoTree) backups).1.map
      Prod.fst).Nodup :=
    ((phase2_fst_sublist _ _).map Prod.fst).nodup hkb
  have hb4nd : (b4.map Prod.fst).Nodup := ((h4.map Prod.fst).nodup_iff).mpr hr2nd
  have hka : ((phase3 root gi fs t3).map Prod.snd).Nodup :=
    (phase3_keys_sublist root gi fs t3).nodup ht3nd
  have hkb4 : ((phase4 root gi fs b4).map Prod.snd).Nodup :=
    (phase4_keys_sublist root gi fs b4).nodup hb4nd
  simp only [run, collect]
  exact sortEntries_blocks _ _ _ _ _ _ (h3.filterMap _) (h4.filterMap _) hka hkb4

/-- Witness for claim C7: reversing the iteration order of both the remaining
tracked set and the remaining backup map leaves the sorted output equal to
the canonical run. -/
theorem claim7_witness :
    (["b", "a"].Perm
        (phase1 "/".length (walkRoot (Option.some giNever) "/" []) ["a", "b"]).1) ∧
      ([("d", "h2"), ("c", "h1")].Perm
        (phase2 "/" "/r/".length (fun _ => FileState.absent)
          (walkRoot Option.none "/r/" []) [("c", "h1"), ("d", "h2")]).1) ∧
      (["a", "b"] : List String).Nodup ∧
      (([("c", "h1"), ("d", "h2")].map Prod.fst).Nodup) ∧
      sortEntries
          ((phase1 "/".length (walkRoot (Option.some giNever) "/" []) ["a", "b"]).2 ++
            (phase2 "/" "/r/".length (fun _ => FileState.absent)
              (walkRoot Option.none "/r/" []) [("c", "h1"), ("d", "h2")]).2 ++
            phase3 "/" giNever (fun _ => FileState.absent) ["b", "a"] ++
            phase4 "/" giNever (fun _ => FileState.absent) [("d", "h2"), ("c", "h1")]) =
        run "/" "/r/" giNever [] [] (fun _ => FileState.absent) ["a", "b"]
          [("c", "h1"), ("d", "h2")] :=
  ⟨by decide, by decide, by decide, by decide,
    claim7_deterministic "/" "/r/" giNever [] [] (fun _ => FileState.absent) ["a", "b"]
      [("c", "h1"), ("d", "h2")] ["b", "a"] [("d", "h2"), ("c", "h1")]
      (by decide) (by decide) (by decide) (by decide)⟩

end ArchDiff
